import Mathlib

/-!
Verification of the `mask` database extension (three scalar string functions:
`mask_string`, `mask_email`, `scramble_string`) against its specification.

Strings are modelled as lists of bytes (`List UInt8`), matching the byte-oriented
contract of the code (`std::string` indexing).  Batch columns are modelled as
functions from row index to value, matching the host's per-row accessor.  The
thread-local RNG of `scramble_string` is modelled by passing the sequence of
index draws explicitly.
-/

namespace MaskExt

/-- The byte of the character `@` (used by `MaskEmailScalarFun`). -/
def atByte : UInt8 := 64

/-- The byte of the character `*` (the hard-coded fill of `MaskEmailScalarFun`). -/
def starByte : UInt8 := 42

/-- `clamp x lo hi` pins `x` into `[lo, hi]`, as in the specification text. -/
def clamp (x lo hi : Int) : Int := max lo (min x hi)

/-- Per-row core of `MaskStringScalarFun`
(`mask_extension.cpp`, the lambda inside `TernaryExecutor::Execute`):
`start = max(0, min(start - 1, input_size))`,
`end = max(start, min(start + length, input_size))`,
result `= input.substr(0, start) + string(end - start, mask_char) + input.substr(end)`.
`start2` plays the role of the mutated C++ variable `start` after clamping and
`e` the role of `end` (a reserved word in Lean). -/
def maskStringRow (input : List UInt8) (start len : Int) (mask_char : UInt8) : List UInt8 :=
  let input_size : Int := input.length
  let start2 : Int := max 0 (min (start - 1) input_size)
  let e : Int := max start2 (min (start2 + len) input_size)
  input.take start2.toNat ++ List.replicate (e - start2).toNat mask_char ++ input.drop e.toNat

/-- Reference definition of `mask_string` written from the specification's own
words: `s0 = clamp(s - 1, 0, L)`, `e = clamp(s0 + n, s0, L)`, output
`S[0 : s0] ++ c repeated (e - s0) times ++ S[e : L]`. -/
def maskStringSpecRef (S : List UInt8) (s n : Int) (c : UInt8) : List UInt8 :=
  let L : Int := S.length
  let s0 : Int := clamp (s - 1) 0 L
  let e : Int := clamp (s0 + n) s0 L
  S.take s0.toNat ++ List.replicate (e - s0).toNat c ++ S.drop e.toNat

/-- Per-row core of `MaskEmailScalarFun`
(`mask_extension.cpp`, the lambda inside `UnaryExecutor::Execute`):
find the first `@`; if absent or at position 0 return the input, otherwise
`input.substr(0, 1) + string(at_pos - 1, '*') + input.substr(at_pos)`. -/
def maskEmailRow (input : List UInt8) : List UInt8 :=
  match input.findIdx? (fun b => b == atByte) with
  | none => input
  | some at_pos =>
    if at_pos = 0 then input
    else input.take 1 ++ List.replicate (at_pos - 1) starByte ++ input.drop at_pos

/-- `std::swap(l[i], l[j])`: exchange the entries at positions `i` and `j`.
When either index is out of bounds (never the case in the shuffle loop) the
list is returned unchanged. -/
def swapL {α : Type} (l : List α) (i j : Nat) : List α :=
  match l.get? i, l.get? j with
  | some a, some b => (l.set i b).set j a
  | some _, none => l
  | none, _ => l

/-- The Fisher-Yates loop of `ScrambleStringScalarFun`:
`for (i = length - 1; i > 0; i--) { j = dis(gen); swap(l[i], l[j]); }`.
The counter argument is the current value of `i`; the draws `j` produced by
`uniform_int_distribution<size_t>(0, i)(gen)` are consumed from the list `js`
(first element = draw for the largest `i`). -/
def fyLoop {α : Type} : List Nat → Nat → List α → List α
  | _, 0, arr => arr
  | [], _ + 1, arr => arr
  | j :: rest, i + 1, arr => fyLoop rest i (swapL arr (i + 1) j)

/-- Per-row core of `ScrambleStringScalarFun`: empty input is returned as is,
otherwise the Fisher-Yates loop runs from `i = length - 1` down to `1`. -/
def scrambleStringRow (js : List Nat) (input : List UInt8) : List UInt8 :=
  if input.isEmpty then input else fyLoop js (input.length - 1) input

/-- `validDraws js i` states that `js` is exactly the sequence of draws consumed
by the loop counting down from `i`: one draw per counter value `i, i-1, ..., 1`,
the draw at counter value `k` lying in `[0, k]` (the support of
`uniform_int_distribution<size_t>(0, k)`). -/
def validDraws : List Nat → Nat → Bool
  | [], 0 => true
  | _ :: _, 0 => false
  | [], _ + 1 => false
  | j :: rest, i + 1 => j ≤ i + 1 && validDraws rest i

/-- The finite set of all valid draw sequences for the loop starting at
counter value `i`. -/
def drawsFinset : Nat → Finset (List Nat)
  | 0 => {[]}
  | i + 1 => (Finset.range (i + 2)).biUnion (fun j => (drawsFinset i).image (List.cons j))

/-- Batch-level model of `MaskStringScalarFun`.  `N` is `args.size()`; the four
argument columns are row-indexed accessors.  For every row the evaluator reads
`mask_vector.GetValue(0).GetData()[0]` — the FIRST byte of the fill column's
value at ROW 0 — modelled by `(fills 0).get? 0`; reading byte 0 of an empty
string is out of bounds, modelled as `none`. -/
def maskStringBatch (N : Nat) (names : Nat → List UInt8) (starts lens : Nat → Int)
    (fills : Nat → List UInt8) : Option (List (List UInt8)) :=
  (List.range N).mapM (fun i =>
    ((fills 0).get? 0).map (fun mask_char =>
      maskStringRow (names i) (starts i) (lens i) mask_char))

/-- Batch-level model of `MaskEmailScalarFun`: independent per-row evaluation. -/
def maskEmailBatch (N : Nat) (emails : Nat → List UInt8) : List (List UInt8) :=
  (List.range N).map (fun i => maskEmailRow (emails i))

/-! ### Basic facts about the clamped bounds of `maskStringRow` -/

lemma maskStringRow_eq (S : List UInt8) (s n : Int) (c : UInt8) :
    maskStringRow S s n c =
      S.take (max 0 (min (s - 1) (S.length : Int))).toNat ++
      List.replicate ((max (max 0 (min (s - 1) (S.length : Int)))
          (min (max 0 (min (s - 1) (S.length : Int)) + n) (S.length : Int)) -
        max 0 (min (s - 1) (S.length : Int))).toNat) c ++
      S.drop (max (max 0 (min (s - 1) (S.length : Int)))
          (min (max 0 (min (s - 1) (S.length : Int)) + n) (S.length : Int))).toNat := rfl

lemma start2_bounds (L s : Int) (hL : 0 ≤ L) :
    0 ≤ max 0 (min (s - 1) L) ∧ max 0 (min (s - 1) L) ≤ L :=
  ⟨le_max_left 0 _, max_le hL (min_le_right _ _)⟩

lemma e_bounds (L s0 n : Int) (hL : s0 ≤ L) :
    s0 ≤ max s0 (min (s0 + n) L) ∧ max s0 (min (s0 + n) L) ≤ L :=
  ⟨le_max_left _ _, max_le hL (min_le_right _ _)⟩

/-! ### C1 and C7: `mask_string` per-row semantics -/

/-- C1: for every input string, 64-bit start and length and fill byte, the code
of `MaskStringScalarFun` computes exactly the specification's reference
definition (clamped start `s0`, clamped end `e`, prefix ++ fill run ++ suffix);
in particular `n ≤ 0` or `s > L` returns the input unchanged. -/
theorem mask_string_matches_reference (S : List UInt8) (s n : Int) (c : UInt8) :
    maskStringRow S s n c = maskStringSpecRef S s n c ∧
    ((n ≤ 0 ∨ (S.length : Int) < s) → maskStringRow S s n c = S) := by
  refine ⟨rfl, fun h => ?_⟩
  rw [maskStringRow_eq]
  have hL : (0 : Int) ≤ (S.length : Int) := Int.ofNat_nonneg _
  have hes0 : max (max 0 (min (s - 1) (S.length : Int)))
      (min (max 0 (min (s - 1) (S.length : Int)) + n) (S.length : Int)) =
      max 0 (min (s - 1) (S.length : Int)) := by
    rcases h with h | h
    · exact max_eq_left (le_trans (min_le_left _ _) (by omega))
    · have h1 : min (s - 1) (S.length : Int) = (S.length : Int) := min_eq_right (by omega)
      rw [h1, max_eq_right hL]
      exact max_eq_left (min_le_right _ _)
  rw [hes0]
  simp [List.take_append_drop]

/-- Witness for C1 at `S = [104, 105]`, `s = 5`, `n = 3`: start beyond the end
leaves the string unchanged. -/
theorem mask_string_matches_reference_witness :
    maskStringRow [104, 105] 5 3 42 = [104, 105] :=
  (mask_string_matches_reference [104, 105] 5 3 42).2 (Or.inr (by decide))

/-- C7: `mask_string` always preserves the byte length of its input. -/
theorem mask_string_length_preserved (S : List UInt8) (s n : Int) (c : UInt8) :
    (maskStringRow S s n c).length = S.length := by
  have hL : (0 : Int) ≤ (S.length : Int) := Int.ofNat_nonneg _
  obtain ⟨h0, h1⟩ := start2_bounds (S.length : Int) s hL
  obtain ⟨h2, h3⟩ := e_bounds (S.length : Int) (max 0 (min (s - 1) (S.length : Int))) n h1
  rw [maskStringRow_eq]
  simp only [List.length_append, List.length_take, List.length_replicate, List.length_drop]
  omega

/-! ### C2: `mask_email` per-row semantics -/

/-- First-match characterisation of `List.findIdx?`, the model of
`std::string::find`. -/
lemma findIdx?_eq_some_char (xs : List UInt8) (p : UInt8 → Bool) (i : Nat) :
    xs.findIdx? p = some i ↔
      ((∃ b, xs.get? i = some b ∧ p b = true) ∧
        ∀ k, k < i → ∀ b, xs.get? k = some b → p b = false) := by
  rw [List.findIdx?_eq_some_iff_findIdx_eq]
  constructor
  · rintro ⟨hlen, hfi⟩
    obtain ⟨hpi, hbefore⟩ := (List.findIdx_eq hlen).mp hfi
    refine ⟨⟨xs.get ⟨i, hlen⟩, List.get?_eq_some.mpr ⟨hlen, rfl⟩, by
      simpa [List.get_eq_getElem] using hpi⟩, ?_⟩
    intro k hk b hb
    obtain ⟨hklen, hgb⟩ := List.get?_eq_some.mp hb
    have hkf := hbefore k hk
    rw [← hgb]
    simpa [List.get_eq_getElem] using hkf
  · rintro ⟨⟨b, hb, hpb⟩, hbefore⟩
    obtain ⟨hlen, hgb⟩ := List.get?_eq_some.mp hb
    refine ⟨hlen, (List.findIdx_eq hlen).mpr ⟨?_, ?_⟩⟩
    · rw [show xs[i] = xs.get ⟨i, hlen⟩ from rfl, hgb]
      exact hpb
    · intro j hj
      exact hbefore j hj xs[j]
        (List.get?_eq_some.mpr ⟨lt_trans hj hlen, rfl⟩)

/-- C2: `mask_email` leaves alone strings without `@` and strings whose first
byte is `@`; otherwise, with `p` the position of the first `@`, it keeps the
first byte, masks the next `p - 1` bytes with `*`, and keeps the rest. -/
theorem mask_email_matches_spec (S : List UInt8) :
    ((∀ b ∈ S, b ≠ atByte) → maskEmailRow S = S) ∧
    (S.get? 0 = some atByte → maskEmailRow S = S) ∧
    (∀ p, 0 < p → S.get? p = some atByte → (∀ k, k < p → S.get? k ≠ some atByte) →
      maskEmailRow S = S.take 1 ++ List.replicate (p - 1) starByte ++ S.drop p) := by
  refine ⟨fun hno => ?_, fun h0 => ?_, fun p hp hat hfirst => ?_⟩
  · have hnone : S.findIdx? (fun b => b == atByte) = none :=
      List.findIdx?_eq_none_iff.mpr (fun x hx => by simp [hno x hx])
    simp [maskEmailRow, hnone]
  · have hsome : S.findIdx? (fun b => b == atByte) = some 0 :=
      (findIdx?_eq_some_char S _ 0).mpr
        ⟨⟨atByte, h0, by simp⟩, fun k hk => absurd hk (Nat.not_lt_zero k)⟩
    simp [maskEmailRow, hsome]
  · have hsome : S.findIdx? (fun b => b == atByte) = some p :=
      (findIdx?_eq_some_char S _ p).mpr
        ⟨⟨atByte, hat, by simp⟩, fun k hk b hb => by
          have hne : b ≠ atByte := fun hbat => hfirst k hk (hbat ▸ hb)
          simp [hne]⟩
    simp [maskEmailRow, hsome, Nat.pos_iff_ne_zero.mp hp]

/-- Witness for C2 at `S = "ab@c"` (`p = 2`): the local part behind the first
byte is replaced by asterisks. -/
theorem mask_email_matches_spec_witness :
    maskEmailRow [97, 98, 64, 99] = [97, 42, 64, 99] := by
  have h := (mask_email_matches_spec [97, 98, 64, 99]).2.2 2 (by decide) (by decide)
    (by decide)
  simpa using h

/-! ### C3: `scramble_string` permutes the bytes -/

/-- Setting position `j` (holding `b`) to `x` and re-heading with `b` is a
permutation of consing with `x`. -/
lemma cons_set_perm {α : Type} : ∀ (t : List α) (j : Nat) (x b : α),
    t.get? j = some b → (x :: t).Perm (b :: t.set j x)
  | [], j, x, b, h => by simp at h
  | a :: t, 0, x, b, h => by
    simp only [List.get?] at h
    cases h
    simpa using List.Perm.swap a x t
  | a :: t, j + 1, x, b, h => by
    have ih := cons_set_perm t j x b (by simpa using h)
    calc x :: a :: t
        |>.Perm (a :: x :: t) := List.Perm.swap a x t
      _ |>.Perm (a :: b :: t.set j x) := List.Perm.cons a ih
      _ |>.Perm (b :: a :: t.set j x) := List.Perm.swap b a (t.set j x)

/-- Writing each of two in-bounds positions with the other's value is a
permutation (core of `std::swap` on indices). -/
lemma set_set_perm {α : Type} : ∀ (l : List α) (i j : Nat) (a b : α),
    l.get? i = some a → l.get? j = some b → ((l.set i b).set j a).Perm l
  | [], _, _, _, _, hi, _ => by simp at hi
  | x :: t, 0, 0, a, b, hi, hj => by
    simp only [List.get?] at hi hj
    cases hi; cases hj
    simp
  | x :: t, 0, j + 1, a, b, hi, hj => by
    simp only [List.get?] at hi
    cases hi
    simp only [List.set_cons_zero, List.set_cons_succ]
    exact (cons_set_perm t j x b (by simpa using hj)).symm
  | x :: t, i + 1, 0, a, b, hi, hj => by
    simp only [List.get?] at hj
    cases hj
    simp only [List.set_cons_succ, List.set_cons_zero]
    exact (cons_set_perm t i x a (by simpa using hi)).symm
  | x :: t, i + 1, j + 1, a, b, hi, hj => by
    simp only [List.set_cons_succ]
    exact List.Perm.cons x (set_set_perm t i j a b (by simpa using hi) (by simpa using hj))

lemma swapL_perm {α : Type} (l : List α) (i j : Nat) : (swapL l i j).Perm l := by
  unfold swapL
  cases hi : l.get? i with
  | none => exact List.Perm.refl l
  | some a =>
    cases hj : l.get? j with
    | none => exact List.Perm.refl l
    | some b => exact set_set_perm l i j a b hi hj

@[simp] lemma fyLoop_zero {α : Type} (js : List Nat) (arr : List α) :
    fyLoop js 0 arr = arr := by cases js <;> rfl

@[simp] lemma fyLoop_nil {α : Type} (i : Nat) (arr : List α) :
    fyLoop ([] : List Nat) i arr = arr := by cases i <;> rfl

@[simp] lemma fyLoop_cons {α : Type} (j : Nat) (rest : List Nat) (i : Nat) (arr : List α) :
    fyLoop (j :: rest) (i + 1) arr = fyLoop rest i (swapL arr (i + 1) j) := rfl

lemma fyLoop_perm {α : Type} : ∀ (js : List Nat) (i : Nat) (arr : List α),
    (fyLoop js i arr).Perm arr
  | js, 0, arr => by simp
  | [], _ + 1, arr => by simp
  | j :: rest, i + 1, arr => by
    rw [fyLoop_cons]
    exact (fyLoop_perm rest i (swapL arr (i + 1) j)).trans (swapL_perm arr (i + 1) j)

/-- C3: for every sequence of draws, the output of `scramble_string` has the
same length and the same byte multiset as the input (it is a permutation of the
input bytes); the empty input yields the empty output. -/
theorem scramble_string_permutes (js : List Nat) (S : List UInt8) :
    (scrambleStringRow js S).length = S.length ∧
    (scrambleStringRow js S).Perm S ∧
    scrambleStringRow js [] = [] := by
  have hp : (scrambleStringRow js S).Perm S := by
    unfold scrambleStringRow
    split
    · exact List.Perm.refl S
    · exact fyLoop_perm js (S.length - 1) S
  exact ⟨hp.length_eq, hp, rfl⟩

/-! ### C8: `mask_email` is idempotent -/

/-- `mask_email` is idempotent on every input: the masked output has its first
`@` at the same position as the input, and re-masking reproduces it. -/
lemma maskEmailRow_idem (S : List UInt8) :
    maskEmailRow (maskEmailRow S) = maskEmailRow S := by
  cases h : S.findIdx? (fun b => b == atByte) with
  | none => simp [maskEmailRow, h]
  | some q =>
    cases q with
    | zero => simp [maskEmailRow, h]
    | succ p =>
      obtain ⟨⟨b, hb, hpb⟩, hbefore⟩ := (findIdx?_eq_some_char S _ (p + 1)).mp h
      have hbat : b = atByte := by simpa using hpb
      subst hbat
      cases S with
      | nil => simp at hb
      | cons s0 rest =>
        have hrest : rest.get? p = some atByte := by simpa [List.get?] using hb
        have hmask : maskEmailRow (s0 :: rest) =
            s0 :: (List.replicate p starByte ++ rest.drop p) := by
          simp [maskEmailRow, h]
        rw [hmask]
        have hfind : (s0 :: (List.replicate p starByte ++ rest.drop p)).findIdx?
            (fun b => b == atByte) = some (p + 1) := by
          apply (findIdx?_eq_some_char _ _ _).mpr
          refine ⟨⟨atByte, ?_, by simp⟩, ?_⟩
          · show (List.replicate p starByte ++ rest.drop p).get? p = some atByte
            rw [List.get?_append_right (by simp)]
            simpa using hrest
          · intro k hk c hc
            cases k with
            | zero =>
              have hs0 : s0 = c := by simpa [List.get?] using hc
              exact hs0 ▸ hbefore 0 (Nat.succ_pos p) s0 (by simp [List.get?])
            | succ m =>
              have hm : m < p := by omega
              have hcstar : c = starByte := by
                have : (List.replicate p starByte ++ rest.drop p).get? m = some c := by
                  simpa [List.get?] using hc
                rw [List.get?_append (by simpa using hm)] at this
                simpa [hm] using this.symm
              subst hcstar
              decide
        have hdrop : (List.replicate p starByte ++ rest.drop p).drop p = rest.drop p :=
          List.drop_left' (List.length_replicate p starByte)
        simp [maskEmailRow, hfind, hdrop]

/-- C8: for every string containing `@` at a positive position, applying
`mask_email` twice gives the same result as applying it once. -/
theorem mask_email_idempotent (S : List UInt8) (p : Nat) (hp : 0 < p)
    (hat : S.get? p = some atByte) :
    maskEmailRow (maskEmailRow S) = maskEmailRow S :=
  maskEmailRow_idem S

/-- Witness for C8 at `S = "ab@c"`, `p = 2`. -/
theorem mask_email_idempotent_witness :
    maskEmailRow (maskEmailRow [97, 98, 64, 99]) = maskEmailRow [97, 98, 64, 99] :=
  mask_email_idempotent [97, 98, 64, 99] 2 (by decide) (by decide)

/-! ### C9: monotonicity of the fill-byte count in `mask_string` -/

/-- Widening the masked region `[a, b)` of the output shape never decreases the
number of fill bytes. -/
lemma mask_count_shape (S : List UInt8) (c : UInt8) (a b1 b2 : Nat)
    (hab1 : a ≤ b1) (hb12 : b1 ≤ b2) :
    (S.take a ++ List.replicate (b1 - a) c ++ S.drop b1).count c ≤
      (S.take a ++ List.replicate (b2 - a) c ++ S.drop b2).count c := by
  have hsplit : S.drop b1 = (S.drop b1).take (b2 - b1) ++ S.drop b2 := by
    have hdd : S.drop b2 = (S.drop b1).drop (b2 - b1) := by
      rw [List.drop_drop]
      congr 1
      omega
    rw [hdd, List.take_append_drop]
  conv_lhs => rw [hsplit]
  simp only [List.count_append, List.count_replicate_self]
  have hm : ((S.drop b1).take (b2 - b1)).count c ≤ b2 - b1 :=
    le_trans (List.count_le_length _ _) (List.length_take_le _ _)
  omega

/-- C9: for fixed input, start and fill byte, increasing the requested length
never decreases the number of fill bytes in the output of `mask_string`. -/
theorem mask_string_count_monotone (S : List UInt8) (s : Int) (c : UInt8)
    (n1 n2 : Int) (h : n1 ≤ n2) :
    (maskStringRow S s n1 c).count c ≤ (maskStringRow S s n2 c).count c := by
  rw [maskStringRow_eq, maskStringRow_eq]
  have hL : (0 : Int) ≤ (S.length : Int) := Int.ofNat_nonneg _
  obtain ⟨h0, h1⟩ := start2_bounds (S.length : Int) s hL
  obtain ⟨h2a, h2b⟩ := e_bounds (S.length : Int) (max 0 (min (s - 1) (S.length : Int))) n1 h1
  obtain ⟨h3a, h3b⟩ := e_bounds (S.length : Int) (max 0 (min (s - 1) (S.length : Int))) n2 h1
  set L : Int := (S.length : Int) with hLdef
  set s0 : Int := max 0 (min (s - 1) L) with hs0def
  set e1 : Int := max s0 (min (s0 + n1) L) with he1def
  set e2 : Int := max s0 (min (s0 + n2) L) with he2def
  have he12 : e1 ≤ e2 := by
    rw [he1def, he2def]
    exact max_le_max le_rfl (min_le_min (by omega) le_rfl)
  have hn1 : (e1 - s0).toNat = e1.toNat - s0.toNat := by omega
  have hn2 : (e2 - s0).toNat = e2.toNat - s0.toNat := by omega
  rw [hn1, hn2]
  exact mask_count_shape S c s0.toNat e1.toNat e2.toNat (by omega) (by omega)

/-- Witness for C9 at `S = "abc"`, `s = 2`, `n1 = 1 ≤ n2 = 5`. -/
theorem mask_string_count_monotone_witness :
    (maskStringRow [97, 98, 99] 2 1 42).count 42 ≤
      (maskStringRow [97, 98, 99] 2 5 42).count 42 :=
  mask_string_count_monotone [97, 98, 99] 2 42 1 5 (by decide)

/-! ### C4, C5, C10: batch-level behaviour -/

lemma mapM_option_some {β γ : Type} (g : β → γ) :
    ∀ l : List β, l.mapM (fun i => some (g i)) = some (l.map g)
  | [] => rfl
  | x :: t => by
    rw [List.mapM_cons, mapM_option_some g t]
    rfl

/-- When the fill column's row-0 value has a first byte `c`, the `mask_string`
batch succeeds and applies the row core with fill `c` to every row. -/
lemma maskStringBatch_eq_some (N : Nat) (names : Nat → List UInt8)
    (starts lens : Nat → Int) (fills : Nat → List UInt8) (c : UInt8)
    (hc : (fills 0).get? 0 = some c) :
    maskStringBatch N names starts lens fills =
      some ((List.range N).map (fun i => maskStringRow (names i) (starts i) (lens i) c)) := by
  unfold maskStringBatch
  simp only [hc, Option.map_some']
  exact mapM_option_some _ _

/-- When the fill column's row-0 value has no first byte and at least one row
is evaluated, the fill-byte read is out of bounds. -/
lemma maskStringBatch_none (N : Nat) (names : Nat → List UInt8)
    (starts lens : Nat → Int) (fills : Nat → List UInt8)
    (hN : 1 ≤ N) (hfill : (fills 0).get? 0 = none) :
    maskStringBatch N names starts lens fills = none := by
  obtain ⟨M, rfl⟩ : ∃ M, N = M + 1 := ⟨N - 1, by omega⟩
  unfold maskStringBatch
  rw [List.range_succ_eq_map, List.mapM_cons, hfill]
  rfl

lemma maskStringBatch_row (N : Nat) (names : Nat → List UInt8)
    (starts lens : Nat → Int) (fills : Nat → List UInt8) (c : UInt8) (i : Nat)
    (hc : (fills 0).get? 0 = some c) (hi : i < N) :
    (maskStringBatch N names starts lens fills).map (fun out => out.get? i) =
      some (some (maskStringRow (names i) (starts i) (lens i) c)) := by
  rw [maskStringBatch_eq_some N names starts lens fills c hc, Option.map_some',
    List.get?_map, List.get?_range hi]
  rfl

/-- C4: the fill byte used for EVERY row of a `mask_string` batch is the first
byte of the fill column's value at row 0; values of the fill column at other
rows never influence the output. -/
theorem mask_string_fill_broadcast_row0 (N : Nat) (names : Nat → List UInt8)
    (starts lens : Nat → Int) (fills fills' : Nat → List UInt8)
    (h : fills 0 = fills' 0) :
    maskStringBatch N names starts lens fills =
      maskStringBatch N names starts lens fills' ∧
    (∀ c, (fills 0).get? 0 = some c →
      maskStringBatch N names starts lens fills =
        some ((List.range N).map (fun i => maskStringRow (names i) (starts i) (lens i) c))) :=
  ⟨by simp only [maskStringBatch, h],
    fun c hc => maskStringBatch_eq_some N names starts lens fills c hc⟩

/-- Witness for C4 at a 2-row batch whose fill column differs away from row 0. -/
theorem mask_string_fill_broadcast_row0_witness :
    maskStringBatch 2 (fun _ => [97, 98, 99]) (fun _ => 1) (fun _ => 2)
        (fun i => if i = 0 then [42] else [35]) =
      maskStringBatch 2 (fun _ => [97, 98, 99]) (fun _ => 1) (fun _ => 2)
        (fun _ => [42]) :=
  (mask_string_fill_broadcast_row0 2 (fun _ => [97, 98, 99]) (fun _ => 1) (fun _ => 2)
    (fun i => if i = 0 then [42] else [35]) (fun _ => [42]) rfl).1

/-- C5: with at least one row, an empty fill value at row 0 makes the fill-byte
read out of bounds (modelled as `none`); a non-empty fill value never does. -/
theorem mask_string_empty_fill_oob (N : Nat) (names : Nat → List UInt8)
    (starts lens : Nat → Int) (fills : Nat → List UInt8) :
    (1 ≤ N → fills 0 = [] → maskStringBatch N names starts lens fills = none) ∧
    (fills 0 ≠ [] → (maskStringBatch N names starts lens fills).isSome = true) := by
  constructor
  · intro hN hfill
    exact maskStringBatch_none N names starts lens fills hN (by simp [hfill])
  · intro hfill
    obtain ⟨c, hc⟩ : ∃ c, (fills 0).get? 0 = some c := by
      cases hf : fills 0 with
      | nil => exact absurd hf hfill
      | cons a t => exact ⟨a, by simp [hf, List.get?]⟩
    rw [maskStringBatch_eq_some N names starts lens fills c hc]
    rfl

/-- Witness for C5: a 1-row batch with an empty fill value fails, and the same
batch with a one-byte fill value succeeds. -/
theorem mask_string_empty_fill_oob_witness :
    maskStringBatch 1 (fun _ => [97]) (fun _ => 1) (fun _ => 1) (fun _ => []) = none ∧
    (maskStringBatch 1 (fun _ => [97]) (fun _ => 1) (fun _ => 1)
      (fun _ => [42])).isSome = true :=
  ⟨(mask_string_empty_fill_oob 1 (fun _ => [97]) (fun _ => 1) (fun _ => 1)
      (fun _ => [])).1 (by decide) rfl,
    (mask_string_empty_fill_oob 1 (fun _ => [97]) (fun _ => 1) (fun _ => 1)
      (fun _ => [42])).2 (by decide)⟩

/-- C10: `mask_string` and `mask_email` are deterministic, stateless functions
of their row inputs: two invocations (even in batches of different widths) that
agree on the inputs of row `i` — including, for `mask_string`, the row-0 fill
value — produce the same output at row `i`. -/
theorem evaluators_deterministic (N N' : Nat) (names names' : Nat → List UInt8)
    (starts starts' lens lens' : Nat → Int) (fills fills' : Nat → List UInt8)
    (emails emails' : Nat → List UInt8) (i : Nat) :
    (i < N → i < N' → names i = names' i → starts i = starts' i → lens i = lens' i →
      fills 0 = fills' 0 →
      (maskStringBatch N names starts lens fills).map (fun out => out.get? i) =
        (maskStringBatch N' names' starts' lens' fills').map (fun out => out.get? i)) ∧
    (i < N → i < N' → emails i = emails' i →
      (maskEmailBatch N emails).get? i = (maskEmailBatch N' emails').get? i) := by
  constructor
  · intro hiN hiN' hnames hstarts hlens hfill
    cases hc : (fills 0).get? 0 with
    | none =>
      rw [maskStringBatch_none N names starts lens fills (by omega) hc,
        maskStringBatch_none N' names' starts' lens' fills' (by omega) (by rw [← hfill]; exact hc)]
    | some c =>
      rw [maskStringBatch_row N names starts lens fills c i hc hiN,
        maskStringBatch_row N' names' starts' lens' fills' c i (by rw [← hfill]; exact hc) hiN',
        hnames, hstarts, hlens]
  · intro hiN hiN' hemails
    unfold maskEmailBatch
    rw [List.get?_map, List.get?_map, List.get?_range hiN, List.get?_range hiN']
    simp [hemails]

/-- Witness for C10 at row 1 of two 2-row batches that agree on row 1 (and on
the row-0 fill value) but differ elsewhere. -/
theorem evaluators_deterministic_witness :
    (maskStringBatch 2 (fun i => if i = 0 then [1] else [97, 98]) (fun _ => 1)
        (fun _ => 1) (fun _ => [42])).map (fun out => out.get? 1) =
      (maskStringBatch 2 (fun i => if i = 0 then [2] else [97, 98]) (fun _ => 1)
        (fun _ => 1) (fun _ => [42])).map (fun out => out.get? 1) ∧
    (maskEmailBatch 2 (fun i => if i = 0 then [1] else [97, 64])).get? 1 =
      (maskEmailBatch 2 (fun i => if i = 0 then [2] else [97, 64])).get? 1 :=
  ⟨(evaluators_deterministic 2 2 (fun i => if i = 0 then [1] else [97, 98])
      (fun i => if i = 0 then [2] else [97, 98]) (fun _ => 1) (fun _ => 1) (fun _ => 1)
      (fun _ => 1) (fun _ => [42]) (fun _ => [42]) (fun _ => []) (fun _ => []) 1).1
      (by decide) (by decide) rfl rfl rfl rfl,
    (evaluators_deterministic 2 2 (fun _ => []) (fun _ => []) (fun _ => 1) (fun _ => 1)
      (fun _ => 1) (fun _ => 1) (fun _ => []) (fun _ => [])
      (fun i => if i = 0 then [1] else [97, 64])
      (fun i => if i = 0 then [2] else [97, 64]) 1).2
      (by decide) (by decide) rfl⟩

/-! ### C6: the shuffle is an unbiased Fisher-Yates -/

lemma swapL_length {α : Type} (l : List α) (i j : Nat) :
    (swapL l i j).length = l.length :=
  (swapL_perm l i j).length_eq

lemma swapL_get?_of_ne {α : Type} (l : List α) (i j k : Nat)
    (hki : k ≠ i) (hkj : k ≠ j) : (swapL l i j).get? k = l.get? k := by
  unfold swapL
  cases hi : l.get? i with
  | none => rfl
  | some a =>
    cases hj : l.get? j with
    | none => rfl
    | some b =>
      rw [List.get?_set_ne a _ (Ne.symm hkj), List.get?_set_ne b _ (Ne.symm hki)]

lemma swapL_get?_fst {α : Type} (l : List α) (i j : Nat)
    (hi : i < l.length) (hj : j < l.length) : (swapL l i j).get? i = l.get? j := by
  unfold swapL
  obtain ⟨a, ha⟩ : ∃ a, l.get? i = some a := ⟨l.get ⟨i, hi⟩, List.get?_eq_get hi⟩
  obtain ⟨b, hb⟩ : ∃ b, l.get? j = some b := ⟨l.get ⟨j, hj⟩, List.get?_eq_get hj⟩
  rw [ha, hb]
  show ((l.set i b).set j a).get? i = some b
  by_cases hij : i = j
  · subst hij
    have hab : a = b := by
      rw [ha] at hb
      exact Option.some.inj hb
    subst hab
    rw [List.get?_set_eq, List.get?_set_eq, ha]
    rfl
  · rw [List.get?_set_ne a _ (Ne.symm hij), List.get?_set_eq, ha]
    rfl

/-- Positions above the loop counter are never touched again (for draws in the
support of the distributions). -/
lemma fyLoop_get?_high {α : Type} : ∀ (js : List Nat) (i : Nat) (arr : List α) (k : Nat),
    validDraws js i = true → i < k → (fyLoop js i arr).get? k = arr.get? k
  | js, 0, arr, k, _, _ => by simp
  | [], i + 1, arr, k, hv, _ => by simp [validDraws] at hv
  | j :: rest, i + 1, arr, k, hv, hik => by
    simp only [validDraws, Bool.and_eq_true, decide_eq_true_eq] at hv
    rw [fyLoop_cons, fyLoop_get?_high rest i _ k hv.2 (by omega)]
    exact swapL_get?_of_ne arr (i + 1) j k (by omega) (by omega)

lemma swapL_map {α β : Type} (f : α → β) (l : List α) (i j : Nat) :
    swapL (l.map f) i j = (swapL l i j).map f := by
  unfold swapL
  rw [List.get?_map, List.get?_map]
  cases hi : l.get? i with
  | none => rfl
  | some a =>
    cases hj : l.get? j with
    | none => rfl
    | some b =>
      simp only [Option.map_some']
      rw [← List.map_set, ← List.map_set]

lemma fyLoop_map {α β : Type} (f : α → β) : ∀ (js : List Nat) (i : Nat) (l : List α),
    fyLoop js i (l.map f) = (fyLoop js i l).map f
  | js, 0, l => by simp
  | [], i + 1, l => by simp
  | j :: rest, i + 1, l => by
    rw [fyLoop_cons, fyLoop_cons, swapL_map, fyLoop_map f rest i]

lemma map_getD_range (S : List UInt8) :
    (List.range S.length).map (fun k => S.getD k 0) = S := by
  apply List.ext_get?
  intro n
  rw [List.get?_map]
  by_cases hn : n < S.length
  · rw [List.get?_range hn, Option.map_some', List.getD_eq_get?, List.get?_eq_get hn]
    rfl
  · rw [List.get?_eq_none.mpr (by simpa using hn), List.get?_eq_none.mpr (by omega)]
    rfl

/-- The byte-level shuffle is the position-level shuffle applied to the input. -/
lemma scramble_via_positions (js : List Nat) (S : List UInt8) (hS : S ≠ []) :
    scrambleStringRow js S =
      (fyLoop js (S.length - 1) (List.range S.length)).map (fun k => S.getD k 0) := by
  unfold scrambleStringRow
  rw [if_neg (by simpa [List.isEmpty_iff] using hS)]
  have h := fyLoop_map (fun k => S.getD k 0) js (S.length - 1) (List.range S.length)
  rw [map_getD_range] at h
  exact h

/-- Two permutations of each other agreeing at every positive position are
equal. -/
lemma perm_eq_of_get?_high {α : Type} (l arr : List α) (hperm : l.Perm arr)
    (hsuf : ∀ k, 0 < k → l.get? k = arr.get? k) : l = arr := by
  cases l with
  | nil => exact (List.perm_nil.mp hperm.symm).symm
  | cons x t =>
    cases arr with
    | nil => exact List.perm_nil.mp hperm
    | cons y u =>
      have htu : t = u := List.ext_get? (fun n => by
        simpa [List.get?] using hsuf (n + 1) (Nat.succ_pos n))
      subst htu
      have hm := Multiset.coe_eq_coe.mpr hperm
      rw [← Multiset.cons_coe, ← Multiset.cons_coe] at hm
      rw [(Multiset.cons_inj_left _).mp hm]

/-- Existence of a draw sequence realising any target permutation whose tail
above the loop counter is already in place. -/
lemma fy_exists {α : Type} [DecidableEq α] : ∀ (i : Nat) (arr l : List α),
    arr.Nodup → i < arr.length → l.Perm arr →
    (∀ k, i < k → l.get? k = arr.get? k) →
    ∃ js, validDraws js i = true ∧ fyLoop js i arr = l := by
  intro i
  induction i with
  | zero =>
    intro arr l _ _ hperm hsuf
    exact ⟨[], rfl, by simpa using (perm_eq_of_get?_high l arr hperm hsuf).symm⟩
  | succ i ih =>
    intro arr l hnd hlen hperm hsuf
    have hllen : l.length = arr.length := hperm.length_eq
    have hilen : i + 1 < l.length := by omega
    obtain ⟨v, hv⟩ : ∃ v, l.get? (i + 1) = some v :=
      ⟨l.get ⟨i + 1, hilen⟩, List.get?_eq_get hilen⟩
    have hvmem : v ∈ arr := hperm.mem_iff.mp (List.get?_mem hv)
    have hlnd : l.Nodup := hperm.symm.nodup hnd
    have hj0lt : List.indexOf v arr < arr.length := List.indexOf_lt_length.mpr hvmem
    have hj0get : arr.get? (List.indexOf v arr) = some v := by
      rw [List.get?_eq_get hj0lt]
      exact congrArg some (List.indexOf_get hj0lt)
    have hj0le : List.indexOf v arr ≤ i + 1 := by
      by_contra hgt
      push_neg at hgt
      have h2 : l.get? (i + 1) = l.get? (List.indexOf v arr) := by
        rw [hv, hsuf (List.indexOf v arr) (by omega), hj0get]
      have := List.get?_inj hilen hlnd h2
      omega
    have hswperm : (swapL arr (i + 1) (List.indexOf v arr)).Perm arr :=
      swapL_perm arr (i + 1) (List.indexOf v arr)
    have hswnd : (swapL arr (i + 1) (List.indexOf v arr)).Nodup := hswperm.symm.nodup hnd
    have hswget : (swapL arr (i + 1) (List.indexOf v arr)).get? (i + 1) = some v := by
      rw [swapL_get?_fst arr (i + 1) (List.indexOf v arr) (by omega) hj0lt]
      exact hj0get
    have hsuf' : ∀ k, i < k → l.get? k = (swapL arr (i + 1) (List.indexOf v arr)).get? k := by
      intro k hk
      rcases Nat.eq_or_lt_of_le hk with hk1 | hk1
      · rw [← hk1, hv, hswget]
      · rw [hsuf k (by omega),
          swapL_get?_of_ne arr (i + 1) (List.indexOf v arr) k (by omega) (by omega)]
    obtain ⟨js', hvalid', hfy'⟩ := ih (swapL arr (i + 1) (List.indexOf v arr)) l hswnd
      (by rw [swapL_length]; omega) (hperm.trans hswperm.symm) hsuf'
    refine ⟨List.indexOf v arr :: js', ?_, ?_⟩
    · simp [validDraws, hvalid', hj0le]
    · rw [fyLoop_cons]
      exact hfy'

/-- Uniqueness of the draw sequence realising a given output. -/
lemma fy_unique {α : Type} : ∀ (i : Nat) (arr : List α) (js js' : List Nat),
    arr.Nodup → i < arr.length →
    validDraws js i = true → validDraws js' i = true →
    fyLoop js i arr = fyLoop js' i arr → js = js' := by
  intro i
  induction i with
  | zero =>
    intro arr js js' _ _ hv hv' _
    cases js with
    | nil =>
      cases js' with
      | nil => rfl
      | cons a t => simp [validDraws] at hv'
    | cons a t => simp [validDraws] at hv
  | succ i ih =>
    intro arr js js' hnd hlen hv hv' heq
    cases js with
    | nil => simp [validDraws] at hv
    | cons j rest =>
      cases js' with
      | nil => simp [validDraws] at hv'
      | cons j' rest' =>
        simp only [validDraws, Bool.and_eq_true, decide_eq_true_eq] at hv hv'
        rw [fyLoop_cons, fyLoop_cons] at heq
        have hjlt : j < arr.length := by omega
        have hj'lt : j' < arr.length := by omega
        have hget : arr.get? j = arr.get? j' := by
          have h3 := congrArg (fun t => t.get? (i + 1)) heq
          simp only [fyLoop_get?_high rest i _ (i + 1) hv.2 (Nat.lt_succ_self i),
            fyLoop_get?_high rest' i _ (i + 1) hv'.2 (Nat.lt_succ_self i)] at h3
          rw [swapL_get?_fst arr (i + 1) j hlen hjlt,
            swapL_get?_fst arr (i + 1) j' hlen hj'lt] at h3
          exact h3
        have hjj' : j = j' := List.get?_inj hjlt hnd hget
        subst hjj'
        rw [ih (swapL arr (i + 1) j) rest rest'
          ((swapL_perm arr (i + 1) j).symm.nodup hnd)
          (by rw [swapL_length]; omega) hv.2 hv'.2 heq]

/-- `drawsFinset i` contains exactly the valid draw sequences. -/
lemma mem_drawsFinset : ∀ (i : Nat) (js : List Nat),
    js ∈ drawsFinset i ↔ validDraws js i = true := by
  intro i
  induction i with
  | zero =>
    intro js
    cases js with
    | nil => simp [drawsFinset, validDraws]
    | cons a t => simp [drawsFinset, validDraws]
  | succ i ih =>
    intro js
    rw [drawsFinset, Finset.mem_biUnion]
    constructor
    · rintro ⟨j, hj, hjs⟩
      rw [Finset.mem_image] at hjs
      obtain ⟨t, ht, rfl⟩ := hjs
      rw [Finset.mem_range] at hj
      simp [validDraws, (ih t).mp ht]
      omega
    · intro hv
      cases js with
      | nil => simp [validDraws] at hv
      | cons j t =>
        simp only [validDraws, Bool.and_eq_true, decide_eq_true_eq] at hv
        refine ⟨j, Finset.mem_range.mpr (by omega), ?_⟩
        rw [Finset.mem_image]
        exact ⟨t, (ih t).mpr hv.2, rfl⟩

/-- There are exactly `(i+1)!` valid draw sequences for the loop starting at
counter `i`. -/
lemma card_drawsFinset : ∀ i : Nat, (drawsFinset i).card = (i + 1).factorial := by
  intro i
  induction i with
  | zero => rfl
  | succ i ih =>
    rw [drawsFinset, Finset.card_biUnion]
    · rw [Finset.sum_congr rfl
        (fun j _ => Finset.card_image_of_injective (drawsFinset i) List.cons_injective)]
      rw [Finset.sum_const, Finset.card_range, ih, smul_eq_mul]
      rfl
    · intro x _ y _ hxy
      rw [Finset.disjoint_left]
      rintro t htx hty
      rw [Finset.mem_image] at htx hty
      obtain ⟨tx, _, rfl⟩ := htx
      obtain ⟨ty, _, hty2⟩ := hty
      exact hxy (List.head_eq_of_cons_eq hty2.symm ▸ rfl)

/-- C6: the shuffle of `scramble_string` is an unbiased Fisher-Yates.  For any
length `L ≥ 1`: (1) there are exactly `L!` valid draw sequences (the product of
the supports of `uniform_int_distribution(0, i)` for `i = L-1, ..., 1`);
(2) each arrangement of the `L` positions is produced by EXACTLY ONE valid draw
sequence, so under uniform independent draws every one of the `L!` permutations
has probability `1/L!`; (3) on any input string of length `L` the byte-level
shuffle is the position-level shuffle applied to the input bytes. -/
theorem scramble_fisher_yates_unbiased (L : Nat) (hL : 1 ≤ L) :
    (drawsFinset (L - 1)).card = L.factorial ∧
    (∀ l : List Nat, l.Perm (List.range L) →
      ∃! js, js ∈ drawsFinset (L - 1) ∧ fyLoop js (L - 1) (List.range L) = l) ∧
    (∀ (js : List Nat) (S : List UInt8), S.length = L →
      scrambleStringRow js S =
        (fyLoop js (L - 1) (List.range L)).map (fun k => S.getD k 0)) := by
  refine ⟨?_, ?_, ?_⟩
  · rw [card_drawsFinset]
    congr 1
    omega
  · intro l hl
    have hlen : (List.range L).length = L := List.length_range L
    have hbound : L - 1 < (List.range L).length := by omega
    have hsuf : ∀ k, L - 1 < k → l.get? k = (List.range L).get? k := by
      intro k hk
      rw [List.get?_eq_none.mpr (by rw [hl.length_eq, hlen]; omega),
        List.get?_eq_none.mpr (by rw [hlen]; omega)]
    obtain ⟨js, hvalid, hfy⟩ :=
      fy_exists (L - 1) (List.range L) l (List.nodup_range L) hbound hl hsuf
    refine ⟨js, ⟨(mem_drawsFinset _ _).mpr hvalid, hfy⟩, ?_⟩
    rintro js' ⟨hmem', hfy'⟩
    exact fy_unique (L - 1) (List.range L) js' js (List.nodup_range L) hbound
      ((mem_drawsFinset _ _).mp hmem') hvalid (by rw [hfy', hfy])
  · intro js S hlen
    subst hlen
    refine scramble_via_positions js S (fun hnil => ?_)
    rw [hnil] at hL
    simp at hL

/-- Witness for C6 at `L = 3`: 6 valid draw sequences, a bijection onto the 6
arrangements of 3 positions, and the byte-level/position-level agreement. -/
theorem scramble_fisher_yates_unbiased_witness :
    (drawsFinset (3 - 1)).card = Nat.factorial 3 ∧
    (∀ l : List Nat, l.Perm (List.range 3) →
      ∃! js, js ∈ drawsFinset (3 - 1) ∧ fyLoop js (3 - 1) (List.range 3) = l) ∧
    (∀ (js : List Nat) (S : List UInt8), S.length = 3 →
      scrambleStringRow js S =
        (fyLoop js (3 - 1) (List.range 3)).map (fun k => S.getD k 0)) :=
  scramble_fisher_yates_unbiased 3 (by decide)

end MaskExt
